import Mathlib

/-!
Verification of the cross-layer-equalization pass
(`tinynn/graph/quantization/cross_layer_equalization.py`).

The file embeds, over a shallow model of the source:
  * the group-discovery traversal (`graph_traverse`, `get_cls_set`),
  * the 2-layer and 3-layer equalization formulas (`equalize`, `equalize_cdc`),
  * the fused-batch-norm co-scaling (`bn_scale`, `_weight_equal_helper`),
  * the bias-absorption helper (`bias_absorb_helper_`),
  * the driver control flow (`cross_layer_equalize`),
and proves or refutes the specified properties of each.
-/

namespace CLE

/-! ## Layer kinds and group discovery

A traced module is inspected by the discovery pass only through the
predicates `isinstance(m, cls_support_type)`, `is_normal_conv`
(`groups == 1`), `is_dw_conv` (`groups == in_channels == out_channels`)
and `isinstance(m, cls_scalable_type)`.  `ModKind` records exactly that
information: a convolution carries the two predicate values, activations
in `cls_scalable_type` are `act`, anything else is `other`. -/

inductive ModKind
  | conv (isNormal : Bool) (isDw : Bool)
  | act
  | other
deriving DecidableEq

/-- `isinstance(layer, cls_support_type)` -/
def isSupportedMod : ModKind → Bool
  | ModKind.conv _ _ => true
  | _ => false

/-- `is_normal_conv(layer)`: a supported conv with `groups == 1` -/
def isNormalConvMod : ModKind → Bool
  | ModKind.conv true _ => true
  | _ => false

/-- `is_dw_conv(layer)`: a supported conv with `groups == in_channels == out_channels` -/
def isDwConvMod : ModKind → Bool
  | ModKind.conv _ true => true
  | _ => false

/-- `isinstance(layer, cls_scalable_type)` -/
def isScalableMod : ModKind → Bool
  | ModKind.act => true
  | _ => false

/-- A discovery group: the `current_group` list of `(unique_name, module)`
pairs; node names are modelled by natural numbers. -/
abbrev Group := List (ℕ × ModKind)

/-- `is_group_supported(current_group)`: `[conv, normal-conv]` or
`[normal-conv, dw-conv, normal-conv]`. -/
def is_group_supported (g : Group) : Bool :=
  match g with
  | [a, b] => isSupportedMod a.2 && isNormalConvMod b.2
  | [a, b, c] => isNormalConvMod a.2 && isDwConvMod b.2 && isNormalConvMod c.2
  | _ => false

/-- The traced computation graph: every node has a module kind and an
ordered list of successor nodes (`TraceNode.next_nodes`). -/
structure Graph where
  mod : ℕ → ModKind
  next : ℕ → List ℕ

/-- `[current_group[-1]]`, the carry-over after a group is recorded. -/
def lastOf (cg : Group) : Group :=
  match cg.getLast? with
  | some p => [p]
  | none => []

/-- Lines 72-74: on entering a node, record the accumulator if it forms a
supported group not yet recorded and restart it from its last element. -/
def entryRecord (groups : List Group) (cg : Group) : List Group × Group :=
  if is_group_supported cg = true ∧ cg ∉ groups then (groups ++ [cg], lastOf cg)
  else (groups, cg)

/-- Lines 78-79: append a supported convolution to the accumulator. -/
def appendConv (G : Graph) (node : ℕ) (cg : Group) : Group :=
  if isSupportedMod (G.mod node) = true then cg ++ [(node, G.mod node)] else cg

/-- Lines 81-84: a branching node or a non-chain module flushes any pending
supported group and clears the accumulator. -/
def boundaryFlush (G : Graph) (node : ℕ) (groups : List Group) (cg : Group) :
    List Group × Group :=
  if 1 < (G.next node).length ∨
      ¬(isScalableMod (G.mod node) = true ∨ isSupportedMod (G.mod node) = true) then
    ((if is_group_supported cg = true ∧ cg ∉ groups then groups ++ [cg] else groups), [])
  else (groups, cg)

/-- Lines 86-88: visit the successors in order; the first successor receives
the current accumulator, every later one a fresh empty accumulator. -/
def runChildren (f : ℕ → List Group → Group → List ℕ → List Group × List ℕ) :
    List ℕ → List Group → Group → List ℕ → List Group × List ℕ
  | [], groups, _, visited => (groups, visited)
  | c :: rest, groups, cg, visited =>
    let r := f c groups cg visited
    runChildren f rest r.1 [] r.2

/-- `graph_traverse(node, layer_groups, current_group, visited_nodes)`.
The Python recursion terminates because every call visits a fresh node of a
finite acyclic graph; the embedding makes this explicit with a fuel
argument (any fuel larger than the number of reachable nodes is enough,
since a call at exhausted fuel could only occur at an already-visited
node, where the source also returns the state unchanged). -/
def graph_traverse (G : Graph) :
    ℕ → ℕ → List Group → Group → List ℕ → List Group × List ℕ
  | 0, _, groups, _, visited => (groups, visited)
  | fuel + 1, node, groups, cg, visited =>
    if node ∈ visited then (groups, visited)
    else
      let p1 := entryRecord groups cg
      let c2 := appendConv G node p1.2
      let p2 := boundaryFlush G node p1.1 c2
      runChildren (graph_traverse G fuel) (G.next node) p2.1 p2.2 (visited ++ [node])

/-- `get_cls_set(cur_graph)`: traverse every forward node in order with a
shared `layer_groups` and `visited_nodes`, each time starting with an empty
`current_group`. -/
def get_cls_set (G : Graph) (forward_nodes : List ℕ) (fuel : ℕ) : List Group :=
  (forward_nodes.foldl
    (fun st node => graph_traverse G fuel node st.1 [] st.2)
    (([] : List Group), ([] : List ℕ))).1

/-! ### Concrete graph families used by the discovery claims -/

/-- Shorthand for a normal (non-depthwise) supported convolution. -/
def cv : ModKind := ModKind.conv true false

/-- The linear chain with `M + 1` normal convolutions at the even nodes
`0, 2, …, 2*M`, scale-preserving activations at the odd nodes between them,
and a chain-breaking module at the final node `2*M + 1`. -/
def chainMod (M : ℕ) (i : ℕ) : ModKind :=
  if i = 2 * M + 1 then ModKind.other
  else if i % 2 = 0 then cv
  else ModKind.act

/-- Successors of the linear chain: node `i` feeds node `i + 1` up to the
final node `2*M + 1`, which is a sink. -/
def chainNext (M : ℕ) (i : ℕ) : List ℕ :=
  if i ≤ 2 * M then [i + 1] else []

def chainGraph (M : ℕ) : Graph := ⟨chainMod M, chainNext M⟩

/-- The 2-group pairing convolutions `2*(i-1)` and `2*i` (for `i ≥ 1`). -/
def pairG (i : ℕ) : Group := [(2 * i - 2, cv), (2 * i, cv)]

/-- The groups recorded while walking the chain from pair `j` to pair `M`. -/
def partFrom (j M : ℕ) : List Group :=
  (List.range (M + 1 - j)).map (fun t => pairG (j + t))

/-- A three-node chain `conv → act → conv` whose final convolution is a
graph sink (no successor at all). -/
def sinkChain : Graph :=
  ⟨fun i => if i = 1 then ModKind.act else cv,
   fun i => if i = 0 then [1] else if i = 1 then [2] else []⟩

/-! ## The equalization formulas (`equalize`, `equalize_cdc`)

Weight tensors are modelled as real-valued functions; the two spatial axes
of a kernel are flattened into one index, which is how `amax([1, 2, 3])`
and the per-channel updates read them.  All arithmetic is exact real
arithmetic (the source computes the ranges in float64). -/

/-- `t.amax(...)` over a nonempty finite index. -/
noncomputable def amax {ι : Type} [Fintype ι] [Nonempty ι] (f : ι → ℝ) : ℝ :=
  Finset.univ.sup' Finset.univ_nonempty f

/-- `weight.abs().amax([1, 2, 3])`: the per-output-channel range. -/
noncomputable def rangeOut {O I K : ℕ} [Nonempty (Fin I)] [Nonempty (Fin K)]
    (w : Fin O → Fin I → Fin K → ℝ) : Fin O → ℝ :=
  fun o => amax fun p : Fin I × Fin K => |w o p.1 p.2|

/-- `weight.permute(1, 0, 2, 3).abs().amax([1, 2, 3])`: the per-input-channel
range of a downstream conv. -/
noncomputable def rangeIn {O C K : ℕ} [Nonempty (Fin O)] [Nonempty (Fin K)]
    (w : Fin O → Fin C → Fin K → ℝ) : Fin C → ℝ :=
  fun c => amax fun p : Fin O × Fin K => |w p.1 c p.2|

/-- `s = r1 / torch.sqrt(r1 * r2)` of the 2-layer `equalize`. -/
noncomputable def eqScale {C I K1 O2 K2 : ℕ}
    [Nonempty (Fin I)] [Nonempty (Fin K1)] [Nonempty (Fin O2)] [Nonempty (Fin K2)]
    (w1 : Fin C → Fin I → Fin K1 → ℝ) (w2 : Fin O2 → Fin C → Fin K2 → ℝ) :
    Fin C → ℝ :=
  fun c => rangeOut w1 c / Real.sqrt (rangeOut w1 c * rangeIn w2 c)

/-- `weight1.data.copy_(weight1 / s.reshape(s_shape))` -/
noncomputable def equalizeW1 {C I K1 O2 K2 : ℕ}
    [Nonempty (Fin I)] [Nonempty (Fin K1)] [Nonempty (Fin O2)] [Nonempty (Fin K2)]
    (w1 : Fin C → Fin I → Fin K1 → ℝ) (w2 : Fin O2 → Fin C → Fin K2 → ℝ) :
    Fin C → Fin I → Fin K1 → ℝ :=
  fun c i k => w1 c i k / eqScale w1 w2 c

/-- `bias1.data.copy_(bias1 / s)` -/
noncomputable def equalizeB1 {C I K1 O2 K2 : ℕ}
    [Nonempty (Fin I)] [Nonempty (Fin K1)] [Nonempty (Fin O2)] [Nonempty (Fin K2)]
    (w1 : Fin C → Fin I → Fin K1 → ℝ) (w2 : Fin O2 → Fin C → Fin K2 → ℝ)
    (b1 : Fin C → ℝ) : Fin C → ℝ :=
  fun c => b1 c / eqScale w1 w2 c

/-- `weight2.data.copy_((w2_p * s.reshape(s_shape)).permute(1, 0, 2, 3))` -/
noncomputable def equalizeW2 {C I K1 O2 K2 : ℕ}
    [Nonempty (Fin I)] [Nonempty (Fin K1)] [Nonempty (Fin O2)] [Nonempty (Fin K2)]
    (w1 : Fin C → Fin I → Fin K1 → ℝ) (w2 : Fin O2 → Fin C → Fin K2 → ℝ) :
    Fin O2 → Fin C → Fin K2 → ℝ :=
  fun o c k => w2 o c k * eqScale w1 w2 c

/-- A convolution as the discovery pass relies on it: output channel `o` at
output position `q` is the bias plus a sum over kernel taps of weights times
input samples.  `chmap` selects which input channel each weight column reads
(the identity for a normal conv, the output channel itself for a depthwise
conv) and `pos` selects which input position each tap reads. -/
def conv {O I K Cin P Q : ℕ}
    (w : Fin O → Fin I → Fin K → ℝ) (b : Fin O → ℝ)
    (chmap : Fin O → Fin I → Fin Cin) (pos : Fin Q → Fin K → Fin P)
    (x : Fin Cin → Fin P → ℝ) : Fin O → Fin Q → ℝ :=
  fun o q => b o + ∑ i, ∑ k, w o i k * x (chmap o i) (pos q k)

/-- `s1 = r1 / pow(r1 * r2 * r3, 1.0 / 3)` of `equalize_cdc`. -/
noncomputable def cdcS1 {C : ℕ} (r1 r2 r3 : Fin C → ℝ) : Fin C → ℝ :=
  fun c => r1 c / (r1 c * r2 c * r3 c) ^ ((1 : ℝ) / 3)

/-- `s2 = pow(r1 * r3 * r2, 1.0 / 3) / r3` of `equalize_cdc`. -/
noncomputable def cdcS2 {C : ℕ} (r1 r2 r3 : Fin C → ℝ) : Fin C → ℝ :=
  fun c => (r1 c * r3 c * r2 c) ^ ((1 : ℝ) / 3) / r3 c

/-- `s1 = torch.where(s1 / s2 > threshold, ones, s1)` (line 124). -/
noncomputable def cdcClamp1 {C : ℕ} (s1 s2 : Fin C → ℝ) (th : ℝ) : Fin C → ℝ :=
  fun c => if th < s1 c / s2 c then 1 else s1 c

/-- `s2 = torch.where(s1 / s2 > threshold, ones, s2)` (line 125); its
condition reads the `s1` already reassigned by line 124. -/
noncomputable def cdcClamp2 {C : ℕ} (s1 s2 : Fin C → ℝ) (th : ℝ) : Fin C → ℝ :=
  fun c => if th < s1 c / s2 c then 1 else s2 c

/-- The pair of scale vectors `(s1, s2)` returned by `equalize_cdc` after
the two `torch.where` clamps, with `r1`, `r2`, `r3` taken from the three
weights exactly as in lines 117-119. -/
noncomputable def cdcScales {C I K1 K2 O3 K3 : ℕ}
    [Nonempty (Fin I)] [Nonempty (Fin K1)] [Nonempty (Fin K2)]
    [Nonempty (Fin O3)] [Nonempty (Fin K3)]
    (w1 : Fin C → Fin I → Fin K1 → ℝ) (w2 : Fin C → Fin 1 → Fin K2 → ℝ)
    (w3 : Fin O3 → Fin C → Fin K3 → ℝ) (th : ℝ) : (Fin C → ℝ) × (Fin C → ℝ) :=
  let s1 := cdcS1 (rangeOut w1) (rangeOut w2) (rangeIn w3)
  let s2 := cdcS2 (rangeOut w1) (rangeOut w2) (rangeIn w3)
  (cdcClamp1 s1 s2 th, cdcClamp2 (cdcClamp1 s1 s2 th) s2 th)

/-- `weight1.data.copy_(weight1 * (1 / s1.reshape(s_shape)))` -/
noncomputable def cdcW1 {C I K1 K2 O3 K3 : ℕ}
    [Nonempty (Fin I)] [Nonempty (Fin K1)] [Nonempty (Fin K2)]
    [Nonempty (Fin O3)] [Nonempty (Fin K3)]
    (w1 : Fin C → Fin I → Fin K1 → ℝ) (w2 : Fin C → Fin 1 → Fin K2 → ℝ)
    (w3 : Fin O3 → Fin C → Fin K3 → ℝ) (th : ℝ) : Fin C → Fin I → Fin K1 → ℝ :=
  fun c i k => w1 c i k * (1 / (cdcScales w1 w2 w3 th).1 c)

/-- `weight2.data.copy_(weight2 * s1.reshape(s_shape) / s2.reshape(s_shape))` -/
noncomputable def cdcW2 {C I K1 K2 O3 K3 : ℕ}
    [Nonempty (Fin I)] [Nonempty (Fin K1)] [Nonempty (Fin K2)]
    [Nonempty (Fin O3)] [Nonempty (Fin K3)]
    (w1 : Fin C → Fin I → Fin K1 → ℝ) (w2 : Fin C → Fin 1 → Fin K2 → ℝ)
    (w3 : Fin O3 → Fin C → Fin K3 → ℝ) (th : ℝ) : Fin C → Fin 1 → Fin K2 → ℝ :=
  fun c i k => w2 c i k * (cdcScales w1 w2 w3 th).1 c / (cdcScales w1 w2 w3 th).2 c

/-- `weight3.data.copy_((w3_p * s2.reshape(s_shape)).permute(1, 0, 2, 3))` -/
noncomputable def cdcW3 {C I K1 K2 O3 K3 : ℕ}
    [Nonempty (Fin I)] [Nonempty (Fin K1)] [Nonempty (Fin K2)]
    [Nonempty (Fin O3)] [Nonempty (Fin K3)]
    (w1 : Fin C → Fin I → Fin K1 → ℝ) (w2 : Fin C → Fin 1 → Fin K2 → ℝ)
    (w3 : Fin O3 → Fin C → Fin K3 → ℝ) (th : ℝ) : Fin O3 → Fin C → Fin K3 → ℝ :=
  fun o c k => w3 o c k * (cdcScales w1 w2 w3 th).2 c

/-- `bias1.data.copy_(bias1 * (1 / s1))` -/
noncomputable def cdcB1 {C I K1 K2 O3 K3 : ℕ}
    [Nonempty (Fin I)] [Nonempty (Fin K1)] [Nonempty (Fin K2)]
    [Nonempty (Fin O3)] [Nonempty (Fin K3)]
    (w1 : Fin C → Fin I → Fin K1 → ℝ) (w2 : Fin C → Fin 1 → Fin K2 → ℝ)
    (w3 : Fin O3 → Fin C → Fin K3 → ℝ) (th : ℝ) (b1 : Fin C → ℝ) : Fin C → ℝ :=
  fun c => b1 c * (1 / (cdcScales w1 w2 w3 th).1 c)

/-- `bias2.data.copy_(bias2 * (1 / s2))` -/
noncomputable def cdcB2 {C I K1 K2 O3 K3 : ℕ}
    [Nonempty (Fin I)] [Nonempty (Fin K1)] [Nonempty (Fin K2)]
    [Nonempty (Fin O3)] [Nonempty (Fin K3)]
    (w1 : Fin C → Fin I → Fin K1 → ℝ) (w2 : Fin C → Fin 1 → Fin K2 → ℝ)
    (w3 : Fin O3 → Fin C → Fin K3 → ℝ) (th : ℝ) (b2 : Fin C → ℝ) : Fin C → ℝ :=
  fun c => b2 c * (1 / (cdcScales w1 w2 w3 th).2 c)

/-! ## Batch-norm co-scaling (`bn_scale`, `_weight_equal_helper`) -/

/-- The affine parameters of a batch-norm layer. -/
structure BNParams (n : ℕ) where
  weight : Fin n → ℝ
  bias : Fin n → ℝ

/-- `bn_scale(conv, scale)`: if the conv carries a `fused_bn_` attribute,
multiply the batch-norm weight and bias by `scale`; otherwise do nothing.
The optional attribute is modelled by `Option`. -/
def bn_scale {n : ℕ} (bn : Option (BNParams n)) (scale : Fin n → ℝ) :
    Option (BNParams n) :=
  match bn with
  | none => none
  | some p => some ⟨fun i => p.weight i * scale i, fun i => p.bias i * scale i⟩

/-- The tensors of a 2-group after `_weight_equal_helper`. -/
structure Eq2Out (C I K1 O2 K2 : ℕ) where
  weight1 : Fin C → Fin I → Fin K1 → ℝ
  bias1 : Fin C → ℝ
  bn1 : Option (BNParams C)
  weight2 : Fin O2 → Fin C → Fin K2 → ℝ

/-- `_weight_equal_helper` on a 2-group: `s = equalize(weight1, bias1,
weight2)` followed by `bn_scale(conv_0, 1 / s)`. -/
noncomputable def weight_equal_helper_2 {C I K1 O2 K2 : ℕ}
    [Nonempty (Fin I)] [Nonempty (Fin K1)] [Nonempty (Fin O2)] [Nonempty (Fin K2)]
    (w1 : Fin C → Fin I → Fin K1 → ℝ) (b1 : Fin C → ℝ) (bn1 : Option (BNParams C))
    (w2 : Fin O2 → Fin C → Fin K2 → ℝ) : Eq2Out C I K1 O2 K2 :=
  ⟨equalizeW1 w1 w2, equalizeB1 w1 w2 b1,
   bn_scale bn1 (fun c => 1 / eqScale w1 w2 c), equalizeW2 w1 w2⟩

/-- The tensors of a 3-group after `_weight_equal_helper`. -/
structure Eq3Out (C I K1 K2 O3 K3 : ℕ) where
  weight1 : Fin C → Fin I → Fin K1 → ℝ
  bias1 : Fin C → ℝ
  bn1 : Option (BNParams C)
  weight2 : Fin C → Fin 1 → Fin K2 → ℝ
  bias2 : Fin C → ℝ
  bn2 : Option (BNParams C)
  weight3 : Fin O3 → Fin C → Fin K3 → ℝ

/-- `_weight_equal_helper` on a 3-group: `s1, s2 = equalize_cdc(...)`
followed by `bn_scale(conv_0, 1 / s1)` and `bn_scale(conv_1, 1 / s2)`. -/
noncomputable def weight_equal_helper_3 {C I K1 K2 O3 K3 : ℕ}
    [Nonempty (Fin I)] [Nonempty (Fin K1)] [Nonempty (Fin K2)]
    [Nonempty (Fin O3)] [Nonempty (Fin K3)]
    (w1 : Fin C → Fin I → Fin K1 → ℝ) (b1 : Fin C → ℝ) (bn1 : Option (BNParams C))
    (w2 : Fin C → Fin 1 → Fin K2 → ℝ) (b2 : Fin C → ℝ) (bn2 : Option (BNParams C))
    (w3 : Fin O3 → Fin C → Fin K3 → ℝ) (th : ℝ) : Eq3Out C I K1 K2 O3 K3 :=
  ⟨cdcW1 w1 w2 w3 th, cdcB1 w1 w2 w3 th b1,
   bn_scale bn1 (fun c => 1 / (cdcScales w1 w2 w3 th).1 c),
   cdcW2 w1 w2 w3 th, cdcB2 w1 w2 w3 th b2,
   bn_scale bn2 (fun c => 1 / (cdcScales w1 w2 w3 th).2 c),
   cdcW3 w1 w2 w3 th⟩

/-! ## Bias absorption (`bias_absorb_helper_`) -/

/-- The Python class of a layer looked up from the model, as far as the
`isinstance` dispatch of `bias_absorb_helper_` distinguishes it. -/
inductive PyKind
  | convBnTrain
  | conv2d
  | other
deriving DecidableEq

/-- A producer or consumer layer as `bias_absorb_helper_` sees it:
its class, the `.bn` submodule consulted on the `ConvBnTrain` path, and the
optional `fused_bn_` attribute consulted on the `nn.Conv2d` path. -/
structure AbsorbLayer (n : ℕ) where
  kind : PyKind
  bn : BNParams n
  fused_bn_ : Option (BNParams n)

/-- The condition of the `elif` on line 241, exactly as written:
`isinstance(pre_layer, nn.Conv2d) and isinstance(pre_layer, nn.Conv2d)` —
it tests the producer twice and never mentions the consumer. -/
def fusedPathGuard {n m : ℕ} (pre : AbsorbLayer n) (cur : AbsorbLayer m) : Prop :=
  pre.kind = PyKind.conv2d ∧ pre.kind = PyKind.conv2d

instance {n m : ℕ} (pre : AbsorbLayer n) (cur : AbsorbLayer m) :
    Decidable (fusedPathGuard pre cur) := by
  unfold fusedPathGuard
  exact instDecidableAnd

/-- `c = pre_bn.bias - 3 * torch.abs(pre_bn.weight)` followed by
`c = torch.where(c < 0, zero, c)` (lines 250-252). -/
noncomputable def absorbC {n : ℕ} (bn : BNParams n) : Fin n → ℝ :=
  fun i =>
    if bn.bias i - 3 * |bn.weight i| < 0 then 0
    else bn.bias i - 3 * |bn.weight i|

/-- `reduced_weight = cur_weight.sum(dim=[2, 3])` (line 255). -/
def reducedWeight {C I Kh Kw : ℕ} (w : Fin C → Fin I → Fin Kh → Fin Kw → ℝ) :
    Fin C → Fin I → ℝ :=
  fun o i => ∑ kh, ∑ kw, w o i kh kw

/-- The observable outcome of one `bias_absorb_helper_` call: an early
`return` before any mutation (`skip` for the missing-bias guard,
`skipNoBn` for the fused path without `fused_bn_`), the
unbound-local-variable error raised when `pre_bn` is read without having
been assigned, or the pair of updated biases written back. -/
inductive AbsorbResult (P C : ℕ)
  | skip
  | skipNoBn
  | unboundLocal
  | applied (preBias : Fin P → ℝ) (curBias : Fin C → ℝ)

/-- Lines 250-268 for a depthwise consumer (`reduced_weight.shape[1] == 1`):
`bias_correct = reduced_weight.reshape(-1) * c`, the producer bias loses `c`
and the consumer bias gains the correction. -/
noncomputable def absorbApplyDw {P Kh Kw : ℕ} (bn : BNParams P)
    (w : Fin P → Fin 1 → Fin Kh → Fin Kw → ℝ) (preBias curBias : Fin P → ℝ) :
    AbsorbResult P P :=
  AbsorbResult.applied (fun i => preBias i - absorbC bn i)
    (fun i => curBias i + reducedWeight w i 0 * absorbC bn i)

/-- Lines 250-268 for a normal consumer:
`bias_correct = torch.matmul(reduced_weight, c)`. -/
noncomputable def absorbApplyNormal {P C Kh Kw : ℕ} (bn : BNParams P)
    (w : Fin C → Fin P → Fin Kh → Fin Kw → ℝ) (preBias : Fin P → ℝ)
    (curBias : Fin C → ℝ) : AbsorbResult P C :=
  AbsorbResult.applied (fun i => preBias i - absorbC bn i)
    (fun o => curBias o + ∑ i, reducedWeight w o i * absorbC bn i)

/-- `bias_absorb_helper_(layer1, layer2, model, origin_model)` for a
depthwise consumer.  `hasBias1`/`hasBias2` are the results of the
`hasattr(layer, 'bias')` tests of line 232; `pre`/`cur` are the layers
fetched from the model; the consumer conv weight and the two biases are the
tensors read on the applied path.  The final `else` of the `isinstance`
dispatch never assigns `pre_bn`, so line 250 raises an unbound-local
error, modelled by `unboundLocal`. -/
noncomputable def bias_absorb_helper_dw {P Kh Kw : ℕ} (hasBias1 hasBias2 : Bool)
    (pre cur : AbsorbLayer P) (curWeight : Fin P → Fin 1 → Fin Kh → Fin Kw → ℝ)
    (preBias curBias : Fin P → ℝ) : AbsorbResult P P :=
  if hasBias1 = false ∨ hasBias2 = false then AbsorbResult.skip
  else if pre.kind = PyKind.convBnTrain ∧ cur.kind = PyKind.convBnTrain then
    absorbApplyDw pre.bn curWeight preBias curBias
  else if fusedPathGuard pre cur then
    match pre.fused_bn_, cur.fused_bn_ with
    | some bn, some _ => absorbApplyDw bn curWeight preBias curBias
    | _, _ => AbsorbResult.skipNoBn
  else AbsorbResult.unboundLocal

/-- `bias_absorb_helper_` for a normal consumer; same control flow, matmul
correction. -/
noncomputable def bias_absorb_helper_normal {P C Kh Kw : ℕ} (hasBias1 hasBias2 : Bool)
    (pre : AbsorbLayer P) (cur : AbsorbLayer C)
    (curWeight : Fin C → Fin P → Fin Kh → Fin Kw → ℝ)
    (preBias : Fin P → ℝ) (curBias : Fin C → ℝ) : AbsorbResult P C :=
  if hasBias1 = false ∨ hasBias2 = false then AbsorbResult.skip
  else if pre.kind = PyKind.convBnTrain ∧ cur.kind = PyKind.convBnTrain then
    absorbApplyNormal pre.bn curWeight preBias curBias
  else if fusedPathGuard pre cur then
    match pre.fused_bn_, cur.fused_bn_ with
    | some bn, some _ => absorbApplyNormal bn curWeight preBias curBias
    | _, _ => AbsorbResult.skipNoBn
  else AbsorbResult.unboundLocal

/-! ## The driver (`cross_layer_equalize`) -/

/-- The only failure the driver control flow can produce by itself. -/
inductive CleError
  | unboundLocal
deriving DecidableEq

/-- The loop `for i in range(cle_iters): layers_groups, model =
_cross_layer_equalize(model, ...)`: after the loop the first component is
the last value assigned to `layers_groups` (`none` when the loop body never
ran, modelling the still-unbound Python local). -/
def cleLoop {α β : Type} (step : α → β × α) : ℕ → α → Option β × α
  | 0, m => (none, m)
  | k + 1, m =>
    let r := cleLoop step k m
    let s := step r.2
    (some s.1, s.2)

/-- `cross_layer_equalize(model, ...)`: rewrite, fuse, run `cle_iters`
equalization passes, optionally absorb using `layers_groups`, clear the
fused-bn attributes, return the model.  The external collaborators
(`model_rewrite`, `model_fuse_bn`, `_cross_layer_equalize`,
`high_bias_absorb`, `clear_model_fused_bn`) are opaque parameters; reading
the never-assigned `layers_groups` raises, modelled by `Except.error`. -/
def cross_layer_equalize {α β : Type} (model_rewrite model_fuse_bn : α → α)
    (step : α → β × α) (high_bias_absorb : β → α → α)
    (clear_model_fused_bn : α → α) (cle_iters : ℕ) (hba_flag : Bool) (model : α) :
    Except CleError α :=
  let m0 := model_fuse_bn (model_rewrite model)
  let r := cleLoop step cle_iters m0
  if hba_flag then
    match r.1 with
    | none => Except.error CleError.unboundLocal
    | some gs => Except.ok (clear_model_fused_bn (high_bias_absorb gs r.2))
  else Except.ok (clear_model_fused_bn r.2)

/-! ## Concrete tensors used by counterexamples and witnesses -/

/-- A single-channel 1×1×1 weight holding the constant `8`. -/
def wEight : Fin 1 → Fin 1 → Fin 1 → ℝ := fun _ _ _ => 8

/-- A single-channel 1×1×1 weight holding the constant `1`. -/
def wOne : Fin 1 → Fin 1 → Fin 1 → ℝ := fun _ _ _ => 1

/-- A single-channel 1×1×1 weight holding the constant `0`. -/
def wZero : Fin 1 → Fin 1 → Fin 1 → ℝ := fun _ _ _ => 0

/-- A constant per-channel vector. -/
def vconst (r : ℝ) : Fin 1 → ℝ := fun _ => r

/-- The ReLU activation, `max(y, 0)`, per channel. -/
def reluAct {C : ℕ} : Fin C → ℝ → ℝ := fun _ y => max y 0

/-- The trivial index map of a 1×1 convolution on a 1×1 input. -/
def oneIdx : Fin 1 → Fin 1 → Fin 1 := fun _ _ => 0

/-! ## Helper lemmas -/

/-- The `torch.where(c < 0, zero, c)` clamp is `max 0 c`. -/
lemma absorbC_eq_max {n : ℕ} (bn : BNParams n) (i : Fin n) :
    absorbC bn i = max 0 (bn.bias i - 3 * |bn.weight i|) := by
  unfold absorbC
  rcases lt_or_le (bn.bias i - 3 * |bn.weight i|) 0 with h | h
  · rw [if_pos h, max_eq_left h.le]
  · rw [if_neg (not_lt.mpr h), max_eq_right h]

/-! ## Claim C5: exactness and non-negativity of bias absorption -/

/-- C5: for an absorbed (producer, consumer) pair, the constant computed on
lines 250-252 equals `max 0 (bn.bias - 3*|bn.weight|)` channelwise and is
non-negative, the producer bias after absorption is exactly its old bias
minus that constant, and the consumer bias is exactly its old bias plus the
correction — `reduced_weight[channel] * c[channel]` for a depthwise
consumer, the reduced-weight matrix times `c` for a normal consumer. -/
theorem bias_absorb_exact {P C Kh Kw : ℕ} (bn bn2 : BNParams P) (bn2n : BNParams C)
    (fb1 fb2 : Option (BNParams P)) (fb2n : Option (BNParams C))
    (wd : Fin P → Fin 1 → Fin Kh → Fin Kw → ℝ)
    (wn : Fin C → Fin P → Fin Kh → Fin Kw → ℝ)
    (pb cb : Fin P → ℝ) (cbn : Fin C → ℝ) :
    (∀ i, 0 ≤ absorbC bn i ∧
      absorbC bn i = max 0 (bn.bias i - 3 * |bn.weight i|)) ∧
    bias_absorb_helper_dw true true ⟨PyKind.convBnTrain, bn, fb1⟩
        ⟨PyKind.convBnTrain, bn2, fb2⟩ wd pb cb =
      AbsorbResult.applied
        (fun i => pb i - max 0 (bn.bias i - 3 * |bn.weight i|))
        (fun i => cb i + reducedWeight wd i 0 * max 0 (bn.bias i - 3 * |bn.weight i|)) ∧
    bias_absorb_helper_normal true true ⟨PyKind.convBnTrain, bn, fb1⟩
        ⟨PyKind.convBnTrain, bn2n, fb2n⟩ wn pb cbn =
      AbsorbResult.applied
        (fun i => pb i - max 0 (bn.bias i - 3 * |bn.weight i|))
        (fun o => cbn o + ∑ i, reducedWeight wn o i * max 0 (bn.bias i - 3 * |bn.weight i|)) := by
  have hguard : ¬ ((true : Bool) = false ∨ (true : Bool) = false) := by simp
  refine ⟨fun i => ⟨?_, absorbC_eq_max bn i⟩, ?_, ?_⟩
  · rw [absorbC_eq_max]; exact le_max_left 0 _
  · simp only [bias_absorb_helper_dw, if_neg hguard, absorbApplyDw, and_self, if_true]
    congr 1 <;> funext i <;> rw [absorbC_eq_max]
  · simp only [bias_absorb_helper_normal, if_neg hguard, absorbApplyNormal, and_self, if_true]
    congr 1
    · funext i; rw [absorbC_eq_max]
    · funext o
      congr 1
      exact Finset.sum_congr rfl fun i _ => by rw [absorbC_eq_max]

/-! ## Claim C6: a pair with a missing bias attribute is skipped silently -/

/-- C6: when either layer of a candidate absorption pair fails the
`hasattr(layer, 'bias')` test, `bias_absorb_helper_` returns at once: the
outcome is the silent early `return` of line 233 — no bias is modified and
no error is raised — for both the depthwise- and the normal-consumer
shapes, whatever the other arguments are. -/
theorem missing_bias_pair_skipped {P C Kh Kw : ℕ} :
    (∀ (hb2 : Bool) (pre cur : AbsorbLayer P)
        (w : Fin P → Fin 1 → Fin Kh → Fin Kw → ℝ) (pb cb : Fin P → ℝ),
      bias_absorb_helper_dw false hb2 pre cur w pb cb = AbsorbResult.skip) ∧
    (∀ (hb1 : Bool) (pre cur : AbsorbLayer P)
        (w : Fin P → Fin 1 → Fin Kh → Fin Kw → ℝ) (pb cb : Fin P → ℝ),
      bias_absorb_helper_dw hb1 false pre cur w pb cb = AbsorbResult.skip) ∧
    (∀ (hb2 : Bool) (pre : AbsorbLayer P) (cur : AbsorbLayer C)
        (w : Fin C → Fin P → Fin Kh → Fin Kw → ℝ) (pb : Fin P → ℝ) (cb : Fin C → ℝ),
      bias_absorb_helper_normal false hb2 pre cur w pb cb = AbsorbResult.skip) ∧
    (∀ (hb1 : Bool) (pre : AbsorbLayer P) (cur : AbsorbLayer C)
        (w : Fin C → Fin P → Fin Kh → Fin Kw → ℝ) (pb : Fin P → ℝ) (cb : Fin C → ℝ),
      bias_absorb_helper_normal hb1 false pre cur w pb cb = AbsorbResult.skip) := by
  refine ⟨fun hb2 pre cur w pb cb => ?_, fun hb1 pre cur w pb cb => ?_,
    fun hb2 pre cur w pb cb => ?_, fun hb1 pre cur w pb cb => ?_⟩
  · rw [bias_absorb_helper_dw, if_pos (Or.inl rfl)]
  · rw [bias_absorb_helper_dw, if_pos (Or.inr rfl)]
  · rw [bias_absorb_helper_normal, if_pos (Or.inl rfl)]
  · rw [bias_absorb_helper_normal, if_pos (Or.inr rfl)]

/-! ## Claim C10: the fused-path guard only inspects the producer -/

/-- C10: the `elif` guard of the fused-batch-norm path (line 241) tests the
producer's type twice and is independent of the consumer — it is equivalent
to `isinstance(pre_layer, nn.Conv2d)` alone — and for any pair whose
producer is neither a `ConvBnTrain` nor an `nn.Conv2d`, both branches are
skipped, `pre_bn` is never assigned, and the helper ends in the
unbound-local error rather than skipping the pair. -/
theorem fused_guard_ignores_consumer :
    (∀ (n m k : ℕ) (pre : AbsorbLayer n) (cur : AbsorbLayer m) (cur2 : AbsorbLayer k),
      (fusedPathGuard pre cur ↔ pre.kind = PyKind.conv2d) ∧
      (fusedPathGuard pre cur ↔ fusedPathGuard pre cur2)) ∧
    (∀ (P Kh Kw : ℕ) (bn : BNParams P) (fb : Option (BNParams P))
        (cur : AbsorbLayer P) (w : Fin P → Fin 1 → Fin Kh → Fin Kw → ℝ)
        (pb cb : Fin P → ℝ),
      bias_absorb_helper_dw true true ⟨PyKind.other, bn, fb⟩ cur w pb cb =
        AbsorbResult.unboundLocal) ∧
    (∀ (P C Kh Kw : ℕ) (bn : BNParams P) (fb : Option (BNParams P))
        (cur : AbsorbLayer C) (w : Fin C → Fin P → Fin Kh → Fin Kw → ℝ)
        (pb : Fin P → ℝ) (cb : Fin C → ℝ),
      bias_absorb_helper_normal true true ⟨PyKind.other, bn, fb⟩ cur w pb cb =
        AbsorbResult.unboundLocal) := by
  have hguard : ¬ ((true : Bool) = false ∨ (true : Bool) = false) := by simp
  refine ⟨fun n m k pre cur cur2 => ⟨⟨fun h => h.1, fun h => ⟨h, h⟩⟩, Iff.rfl⟩,
    fun P Kh Kw bn fb cur w pb cb => ?_, fun P C Kh Kw bn fb cur w pb cb => ?_⟩
  · rw [bias_absorb_helper_dw, if_neg hguard, if_neg (by simp), if_neg (by
      simp [fusedPathGuard])]
  · rw [bias_absorb_helper_normal, if_neg hguard, if_neg (by simp), if_neg (by
      simp [fusedPathGuard])]

/-! ## Claim C9: the driver with `cle_iters = 0` and groups of the last pass -/

/-- C9: with `cle_iters = 0` and `hba_flag = True` the loop of
`cross_layer_equalize` never assigns `layers_groups`, so the absorption
step reads an unbound name and the call errors instead of returning a
model; with `cle_iters = n + 1` the groups handed to `high_bias_absorb`
are exactly those produced by the last (`n + 1`-st) equalization
iteration. -/
theorem cle_driver_groups {α β : Type} (model_rewrite model_fuse_bn : α → α)
    (step : α → β × α) (high_bias_absorb : β → α → α)
    (clear_model_fused_bn : α → α) (m : α) (n : ℕ) :
    cross_layer_equalize model_rewrite model_fuse_bn step high_bias_absorb
        clear_model_fused_bn 0 true m = Except.error CleError.unboundLocal ∧
    cross_layer_equalize model_rewrite model_fuse_bn step high_bias_absorb
        clear_model_fused_bn (n + 1) true m =
      Except.ok (clear_model_fused_bn (high_bias_absorb
        (step (cleLoop step n (model_fuse_bn (model_rewrite m))).2).1
        (step (cleLoop step n (model_fuse_bn (model_rewrite m))).2).2)) :=
  ⟨rfl, rfl⟩

/-! ## Claim C7: fused batch-norms are co-scaled with the conv bias -/

/-- C7: during `_weight_equal_helper`, every layer holding a `fused_bn_`
reference has its batch-norm weight and bias multiplied by the inverse
`1 / s` of the per-channel factor `s` by which that layer's conv bias is
divided: `conv_0` with `1 / s` (2-group) or `1 / s1` (3-group), and
`conv_1` of a 3-group with `1 / s2`. -/
theorem fused_bn_coscaled {C I K1 O2 K2 D I2 L1 L2 O3 L3 : ℕ}
    [Nonempty (Fin I)] [Nonempty (Fin K1)] [Nonempty (Fin O2)] [Nonempty (Fin K2)]
    [Nonempty (Fin I2)] [Nonempty (Fin L1)] [Nonempty (Fin L2)]
    [Nonempty (Fin O3)] [Nonempty (Fin L3)]
    (w1 : Fin C → Fin I → Fin K1 → ℝ) (b1 : Fin C → ℝ) (p : BNParams C)
    (w2 : Fin O2 → Fin C → Fin K2 → ℝ)
    (v1 : Fin D → Fin I2 → Fin L1 → ℝ) (c1 : Fin D → ℝ) (q1 : BNParams D)
    (v2 : Fin D → Fin 1 → Fin L2 → ℝ) (c2 : Fin D → ℝ) (q2 : BNParams D)
    (v3 : Fin O3 → Fin D → Fin L3 → ℝ) (th : ℝ) :
    (∀ c, (weight_equal_helper_2 w1 b1 (some p) w2).bias1 c =
      b1 c * (1 / eqScale w1 w2 c)) ∧
    (weight_equal_helper_2 w1 b1 (some p) w2).bn1 =
      some ⟨fun c => p.weight c * (1 / eqScale w1 w2 c),
            fun c => p.bias c * (1 / eqScale w1 w2 c)⟩ ∧
    (∀ c, (weight_equal_helper_3 v1 c1 (some q1) v2 c2 (some q2) v3 th).bias1 c =
      c1 c * (1 / (cdcScales v1 v2 v3 th).1 c)) ∧
    (weight_equal_helper_3 v1 c1 (some q1) v2 c2 (some q2) v3 th).bn1 =
      some ⟨fun c => q1.weight c * (1 / (cdcScales v1 v2 v3 th).1 c),
            fun c => q1.bias c * (1 / (cdcScales v1 v2 v3 th).1 c)⟩ ∧
    (∀ c, (weight_equal_helper_3 v1 c1 (some q1) v2 c2 (some q2) v3 th).bias2 c =
      c2 c * (1 / (cdcScales v1 v2 v3 th).2 c)) ∧
    (weight_equal_helper_3 v1 c1 (some q1) v2 c2 (some q2) v3 th).bn2 =
      some ⟨fun c => q2.weight c * (1 / (cdcScales v1 v2 v3 th).2 c),
            fun c => q2.bias c * (1 / (cdcScales v1 v2 v3 th).2 c)⟩ := by
  refine ⟨fun c => ?_, rfl, fun c => rfl, rfl, fun c => rfl, rfl⟩
  simp only [weight_equal_helper_2, equalizeB1, mul_one_div]

/-- Witness for C7 on concrete single-channel layers carrying fused
batch-norms. -/
theorem fused_bn_coscaled_witness :
    (∀ c, (weight_equal_helper_2 wOne (vconst 7)
        (some ⟨vconst 2, vconst 3⟩) wOne).bias1 c =
      vconst 7 c * (1 / eqScale wOne wOne c)) ∧
    (weight_equal_helper_2 wOne (vconst 7) (some ⟨vconst 2, vconst 3⟩) wOne).bn1 =
      some ⟨fun c => vconst 2 c * (1 / eqScale wOne wOne c),
            fun c => vconst 3 c * (1 / eqScale wOne wOne c)⟩ ∧
    (∀ c, (weight_equal_helper_3 wOne (vconst 7) (some ⟨vconst 2, vconst 3⟩) wOne
        (vconst 5) (some ⟨vconst 4, vconst 6⟩) wOne 1000).bias1 c =
      vconst 7 c * (1 / (cdcScales wOne wOne wOne 1000).1 c)) ∧
    (weight_equal_helper_3 wOne (vconst 7) (some ⟨vconst 2, vconst 3⟩) wOne
        (vconst 5) (some ⟨vconst 4, vconst 6⟩) wOne 1000).bn1 =
      some ⟨fun c => vconst 2 c * (1 / (cdcScales wOne wOne wOne 1000).1 c),
            fun c => vconst 3 c * (1 / (cdcScales wOne wOne wOne 1000).1 c)⟩ ∧
    (∀ c, (weight_equal_helper_3 wOne (vconst 7) (some ⟨vconst 2, vconst 3⟩) wOne
        (vconst 5) (some ⟨vconst 4, vconst 6⟩) wOne 1000).bias2 c =
      vconst 5 c * (1 / (cdcScales wOne wOne wOne 1000).2 c)) ∧
    (weight_equal_helper_3 wOne (vconst 7) (some ⟨vconst 2, vconst 3⟩) wOne
        (vconst 5) (some ⟨vconst 4, vconst 6⟩) wOne 1000).bn2 =
      some ⟨fun c => vconst 4 c * (1 / (cdcScales wOne wOne wOne 1000).2 c),
            fun c => vconst 6 c * (1 / (cdcScales wOne wOne wOne 1000).2 c)⟩ :=
  fused_bn_coscaled wOne (vconst 7) ⟨vconst 2, vconst 3⟩ wOne wOne (vconst 7)
    ⟨vconst 2, vconst 3⟩ wOne (vconst 5) ⟨vconst 4, vconst 6⟩ wOne 1000

/-! ## Range lemmas -/

lemma amax_nonneg {ι : Type} [Fintype ι] [Nonempty ι] (f : ι → ℝ)
    (h : ∀ i, 0 ≤ f i) : 0 ≤ amax f := by
  obtain ⟨i⟩ := (inferInstance : Nonempty ι)
  exact le_trans (h i) (Finset.le_sup' f (Finset.mem_univ i))


lemma rangeOut_nonneg {O I K : ℕ} [Nonempty (Fin I)] [Nonempty (Fin K)]
    (w : Fin O → Fin I → Fin K → ℝ) (o : Fin O) : 0 ≤ rangeOut w o :=
  amax_nonneg _ fun _ => abs_nonneg _

lemma rangeIn_nonneg {O C K : ℕ} [Nonempty (Fin O)] [Nonempty (Fin K)]
    (w : Fin O → Fin C → Fin K → ℝ) (c : Fin C) : 0 ≤ rangeIn w c :=
  amax_nonneg _ fun _ => abs_nonneg _

lemma amax_const {ι : Type} [Fintype ι] [Nonempty ι] (r : ℝ) :
    amax (fun _ : ι => r) = r :=
  Finset.sup'_const _ r

lemma rangeOut_of_const {O I K : ℕ} [Nonempty (Fin I)] [Nonempty (Fin K)]
    (r : ℝ) (o : Fin O) :
    rangeOut (fun (_ : Fin O) (_ : Fin I) (_ : Fin K) => r) o = |r| := by
  simp only [rangeOut]
  exact amax_const _

lemma rangeIn_of_const {O C K : ℕ} [Nonempty (Fin O)] [Nonempty (Fin K)]
    (r : ℝ) (c : Fin C) :
    rangeIn (fun (_ : Fin O) (_ : Fin C) (_ : Fin K) => r) c = |r| := by
  simp only [rangeIn]
  exact amax_const _

lemma rangeOut_wOne (c : Fin 1) : rangeOut wOne c = 1 := by
  rw [show wOne = fun (_ : Fin 1) (_ : Fin 1) (_ : Fin 1) => (1 : ℝ) from rfl,
    rangeOut_of_const]
  norm_num

lemma rangeIn_wOne (c : Fin 1) : rangeIn wOne c = 1 := by
  rw [show wOne = fun (_ : Fin 1) (_ : Fin 1) (_ : Fin 1) => (1 : ℝ) from rfl,
    rangeIn_of_const]
  norm_num

lemma rangeOut_wEight (c : Fin 1) : rangeOut wEight c = 8 := by
  rw [show wEight = fun (_ : Fin 1) (_ : Fin 1) (_ : Fin 1) => (8 : ℝ) from rfl,
    rangeOut_of_const]
  norm_num

lemma rangeOut_wZero (c : Fin 1) : rangeOut wZero c = 0 := by
  rw [show wZero = fun (_ : Fin 1) (_ : Fin 1) (_ : Fin 1) => (0 : ℝ) from rfl,
    rangeOut_of_const]
  norm_num

lemma rpow_cube_root (r : ℝ) (hr : 0 ≤ r) : (r * r * r) ^ ((1 : ℝ) / 3) = r := by
  have h3 : r * r * r = r ^ (((3 : ℕ) : ℝ)) := by
    rw [Real.rpow_natCast]; ring
  rw [h3, ← Real.rpow_mul hr]
  norm_num

lemma eqScale_balanced {C I K1 O2 K2 : ℕ}
    [Nonempty (Fin I)] [Nonempty (Fin K1)] [Nonempty (Fin O2)] [Nonempty (Fin K2)]
    (w1 : Fin C → Fin I → Fin K1 → ℝ) (w2 : Fin O2 → Fin C → Fin K2 → ℝ)
    (h : ∀ c, rangeOut w1 c = rangeIn w2 c) (hnz : ∀ c, rangeOut w1 c ≠ 0)
    (c : Fin C) : eqScale w1 w2 c = 1 := by
  unfold eqScale
  rw [← h c, Real.sqrt_mul_self (rangeOut_nonneg w1 c), div_self (hnz c)]

lemma cdc_scales_balanced {C I K1 K2 O3 K3 : ℕ}
    [Nonempty (Fin I)] [Nonempty (Fin K1)] [Nonempty (Fin K2)]
    [Nonempty (Fin O3)] [Nonempty (Fin K3)]
    (v1 : Fin C → Fin I → Fin K1 → ℝ) (v2 : Fin C → Fin 1 → Fin K2 → ℝ)
    (v3 : Fin O3 → Fin C → Fin K3 → ℝ) (th : ℝ)
    (h3a : ∀ c, rangeOut v1 c = rangeOut v2 c)
    (h3b : ∀ c, rangeOut v2 c = rangeIn v3 c)
    (hnz : ∀ c, rangeOut v1 c ≠ 0) (c : Fin C) :
    (cdcScales v1 v2 v3 th).1 c = 1 ∧ (cdcScales v1 v2 v3 th).2 c = 1 := by
  have hr0 : 0 ≤ rangeOut v1 c := rangeOut_nonneg v1 c
  have hs1 : cdcS1 (rangeOut v1) (rangeOut v2) (rangeIn v3) c = 1 := by
    unfold cdcS1
    rw [← h3b c, ← h3a c, rpow_cube_root _ hr0, div_self (hnz c)]
  have hs2 : cdcS2 (rangeOut v1) (rangeOut v2) (rangeIn v3) c = 1 := by
    unfold cdcS2
    rw [← h3b c, ← h3a c, rpow_cube_root _ hr0, div_self (hnz c)]
  constructor
  · simp only [cdcScales, cdcClamp1, hs1, hs2, ite_self]
  · simp only [cdcScales, cdcClamp2, cdcClamp1, hs1, hs2, ite_self]

/-! ## Claim C8: an already-balanced group gets scale factors exactly 1 -/

/-- C8: when all per-channel ranges of a group agree (`r1 = r2` for a
2-group, `r1 = r2 = r3` for a 3-group) and are non-zero, the scale factors
computed by `equalize` and `equalize_cdc` are exactly `1` for every
channel, so a further pass leaves every weight and bias unchanged. -/
theorem balanced_group_second_pass_identity {C I K1 O2 K2 D I2 L1 L2 O3 L3 : ℕ}
    [Nonempty (Fin I)] [Nonempty (Fin K1)] [Nonempty (Fin O2)] [Nonempty (Fin K2)]
    [Nonempty (Fin I2)] [Nonempty (Fin L1)] [Nonempty (Fin L2)]
    [Nonempty (Fin O3)] [Nonempty (Fin L3)]
    (w1 : Fin C → Fin I → Fin K1 → ℝ) (b1 : Fin C → ℝ)
    (w2 : Fin O2 → Fin C → Fin K2 → ℝ)
    (v1 : Fin D → Fin I2 → Fin L1 → ℝ) (c1 : Fin D → ℝ)
    (v2 : Fin D → Fin 1 → Fin L2 → ℝ) (c2 : Fin D → ℝ)
    (v3 : Fin O3 → Fin D → Fin L3 → ℝ) (th : ℝ)
    (h2 : ∀ c, rangeOut w1 c = rangeIn w2 c) (h2nz : ∀ c, rangeOut w1 c ≠ 0)
    (h3a : ∀ c, rangeOut v1 c = rangeOut v2 c)
    (h3b : ∀ c, rangeOut v2 c = rangeIn v3 c)
    (h3nz : ∀ c, rangeOut v1 c ≠ 0) :
    (∀ c, eqScale w1 w2 c = 1) ∧
    equalizeW1 w1 w2 = w1 ∧ equalizeB1 w1 w2 b1 = b1 ∧ equalizeW2 w1 w2 = w2 ∧
    (∀ c, (cdcScales v1 v2 v3 th).1 c = 1 ∧ (cdcScales v1 v2 v3 th).2 c = 1) ∧
    cdcW1 v1 v2 v3 th = v1 ∧ cdcB1 v1 v2 v3 th c1 = c1 ∧
    cdcW2 v1 v2 v3 th = v2 ∧ cdcB2 v1 v2 v3 th c2 = c2 ∧
    cdcW3 v1 v2 v3 th = v3 := by
  have hs := eqScale_balanced w1 w2 h2 h2nz
  have hc := cdc_scales_balanced v1 v2 v3 th h3a h3b h3nz
  refine ⟨hs, ?_, ?_, ?_, hc, ?_, ?_, ?_, ?_, ?_⟩
  · funext c i k; simp only [equalizeW1]; rw [hs c, div_one]
  · funext c; simp only [equalizeB1]; rw [hs c, div_one]
  · funext o c k; simp only [equalizeW2]; rw [hs c, mul_one]
  · funext c i k; simp only [cdcW1]; rw [(hc c).1]; norm_num
  · funext c; simp only [cdcB1]; rw [(hc c).1]; norm_num
  · funext c i k; simp only [cdcW2]; rw [(hc c).1, (hc c).2]; norm_num
  · funext c; simp only [cdcB2]; rw [(hc c).2]; norm_num
  · funext o c k; simp only [cdcW3]; rw [(hc c).2, mul_one]

/-- Witness for C8 at a concretely balanced group: all-ones weights in
both group shapes, with threshold 1000. -/
theorem balanced_group_second_pass_identity_witness :
    (∀ c, eqScale wOne wOne c = 1) ∧
    equalizeW1 wOne wOne = wOne ∧ equalizeB1 wOne wOne (vconst 7) = vconst 7 ∧
    equalizeW2 wOne wOne = wOne ∧
    (∀ c, (cdcScales wOne wOne wOne 1000).1 c = 1 ∧
      (cdcScales wOne wOne wOne 1000).2 c = 1) ∧
    cdcW1 wOne wOne wOne 1000 = wOne ∧
    cdcB1 wOne wOne wOne 1000 (vconst 7) = vconst 7 ∧
    cdcW2 wOne wOne wOne 1000 = wOne ∧
    cdcB2 wOne wOne wOne 1000 (vconst 5) = vconst 5 ∧
    cdcW3 wOne wOne wOne 1000 = wOne :=
  balanced_group_second_pass_identity wOne (vconst 7) wOne wOne (vconst 7) wOne
    (vconst 5) wOne 1000
    (fun c => by rw [rangeOut_wOne, rangeIn_wOne])
    (fun c => by rw [rangeOut_wOne]; norm_num)
    (fun c => by rw [rangeOut_wOne])
    (fun c => by rw [rangeOut_wOne, rangeIn_wOne])
    (fun c => by rw [rangeOut_wOne]; norm_num)

/-! ## Claim C1: the stability clamp resets `s1` but generally not `s2` -/

/-- C1 (evaluation at the failing input): with `weight1 = [[[8]]]`,
`weight2 = [[[1]]]`, `weight3 = [[[1]]]` and `threshold = 3/2`, the
unclamped ratio is `s1 / s2 = 4 / 2 = 2 > 3/2`, so the claim demands that
both scales be reset to 1 and the channel left untouched.  The code resets
only `s1` (line 124); line 125 re-tests the condition with the already
clamped `s1`, `1 / 2 > 3/2` is false, and `s2` stays `2`: the channel's
`weight2` entry becomes `1/2` (it was `1`), its `weight3` entry becomes
`2`, and `bias2` becomes `1/2`. -/
theorem cdc_clamp_resets_only_s1 :
    ((3 : ℝ) / 2 < cdcS1 (rangeOut wEight) (rangeOut wOne) (rangeIn wOne) 0 /
      cdcS2 (rangeOut wEight) (rangeOut wOne) (rangeIn wOne) 0) ∧
    (cdcScales wEight wOne wOne (3 / 2)).1 0 = 1 ∧
    (cdcScales wEight wOne wOne (3 / 2)).2 0 = 2 ∧
    wOne 0 0 0 = 1 ∧
    cdcW2 wEight wOne wOne (3 / 2) 0 0 0 = 1 / 2 ∧
    cdcW3 wEight wOne wOne (3 / 2) 0 0 0 = 2 ∧
    cdcB2 wEight wOne wOne (3 / 2) (vconst 1) 0 = 1 / 2 := by
  have hr1 : rangeOut wEight (0 : Fin 1) = 8 := rangeOut_wEight 0
  have hr2 : rangeOut wOne (0 : Fin 1) = 1 := rangeOut_wOne 0
  have hr3 : rangeIn wOne (0 : Fin 1) = 1 := rangeIn_wOne 0
  have hcube : ((8 : ℝ) * 1 * 1) ^ ((1 : ℝ) / 3) = 2 := by
    have h8 : (8 : ℝ) * 1 * 1 = 2 * 2 * 2 := by norm_num
    rw [h8, rpow_cube_root 2 (by norm_num)]
  have hs1 : cdcS1 (rangeOut wEight) (rangeOut wOne) (rangeIn wOne) 0 = 4 := by
    unfold cdcS1
    rw [hr1, hr2, hr3, hcube]
    norm_num
  have hs2 : cdcS2 (rangeOut wEight) (rangeOut wOne) (rangeIn wOne) 0 = 2 := by
    unfold cdcS2
    rw [hr1, hr2, hr3, hcube]
    norm_num
  have hclamp1 : (cdcScales wEight wOne wOne (3 / 2)).1 0 = 1 := by
    simp only [cdcScales, cdcClamp1, hs1, hs2]
    rw [if_pos (by norm_num : (3 : ℝ) / 2 < 4 / 2)]
  have hclamp2 : (cdcScales wEight wOne wOne (3 / 2)).2 0 = 2 := by
    simp only [cdcScales, cdcClamp2, cdcClamp1, hs1, hs2]
    rw [if_pos (by norm_num : (3 : ℝ) / 2 < 4 / 2),
      if_neg (by norm_num : ¬ (3 : ℝ) / 2 < 1 / 2)]
  refine ⟨by rw [hs1, hs2]; norm_num, hclamp1, hclamp2, rfl, ?_, ?_, ?_⟩
  · simp only [cdcW2, wOne]
    rw [hclamp1, hclamp2]
    norm_num
  · simp only [cdcW3, wOne]
    rw [hclamp2]
    norm_num
  · simp only [cdcB2, vconst]
    rw [hclamp2]
    norm_num

/-! ## Claim C2: 2-layer equalization preserves the composed function -/

lemma eqScale_pos {C I K1 O2 K2 : ℕ}
    [Nonempty (Fin I)] [Nonempty (Fin K1)] [Nonempty (Fin O2)] [Nonempty (Fin K2)]
    (w1 : Fin C → Fin I → Fin K1 → ℝ) (w2 : Fin O2 → Fin C → Fin K2 → ℝ)
    {c : Fin C} (hr1 : rangeOut w1 c ≠ 0) (hr2 : rangeIn w2 c ≠ 0) :
    0 < eqScale w1 w2 c := by
  have h1 : 0 < rangeOut w1 c := lt_of_le_of_ne (rangeOut_nonneg w1 c) (Ne.symm hr1)
  have h2 : 0 < rangeIn w2 c := lt_of_le_of_ne (rangeIn_nonneg w2 c) (Ne.symm hr2)
  exact div_pos h1 (Real.sqrt_pos.mpr (mul_pos h1 h2))

/-- The first conv after the in-place update computes exactly the original
output divided channelwise by `s`. -/
lemma conv_equalized_first {C I K1 O2 K2 Cin P Q : ℕ}
    [Nonempty (Fin I)] [Nonempty (Fin K1)] [Nonempty (Fin O2)] [Nonempty (Fin K2)]
    (w1 : Fin C → Fin I → Fin K1 → ℝ) (b1 : Fin C → ℝ)
    (w2 : Fin O2 → Fin C → Fin K2 → ℝ)
    (chmap : Fin C → Fin I → Fin Cin) (pos : Fin Q → Fin K1 → Fin P)
    (x : Fin Cin → Fin P → ℝ) (c : Fin C) (q : Fin Q) :
    conv (equalizeW1 w1 w2) (equalizeB1 w1 w2 b1) chmap pos x c q =
      conv w1 b1 chmap pos x c q / eqScale w1 w2 c := by
  simp only [conv, equalizeW1, equalizeB1, add_div, Finset.sum_div, div_mul_eq_mul_div]

/-- The ReLU of the scalable set is positively homogeneous per channel. -/
lemma reluAct_posHomog {C : ℕ} :
    ∀ (c : Fin C) (t y : ℝ), 0 < t → reluAct c (t * y) = t * reluAct c y := by
  intro c t y ht
  unfold reluAct
  rw [mul_max_of_nonneg y 0 ht.le, mul_zero]

/-- C2 (amended with the non-degeneracy the identity needs): for any pair of
convolutions joined by a positively homogeneous per-channel activation, and
any input `x`, the composition `conv2(act(conv1(x)))` is unchanged by the
in-place update `weight1[c] /= s_c`, `bias1[c] /= s_c`,
`weight2[:,c] *= s_c` with `s_c = r1_c / sqrt(r1_c * r2_c)`, provided every
per-channel range `r1_c`, `r2_c` is non-zero (so that every `s_c` is a
positive real). -/
theorem equalize_preserves_composition {C I K1 O2 K2 Cin P Q Q2 : ℕ}
    [Nonempty (Fin I)] [Nonempty (Fin K1)] [Nonempty (Fin O2)] [Nonempty (Fin K2)]
    (w1 : Fin C → Fin I → Fin K1 → ℝ) (b1 : Fin C → ℝ)
    (w2 : Fin O2 → Fin C → Fin K2 → ℝ) (b2 : Fin O2 → ℝ)
    (chmap1 : Fin C → Fin I → Fin Cin) (pos1 : Fin Q → Fin K1 → Fin P)
    (pos2 : Fin Q2 → Fin K2 → Fin Q)
    (act : Fin C → ℝ → ℝ)
    (hact : ∀ (c : Fin C) (t y : ℝ), 0 < t → act c (t * y) = t * act c y)
    (hr1 : ∀ c, rangeOut w1 c ≠ 0) (hr2 : ∀ c, rangeIn w2 c ≠ 0)
    (x : Fin Cin → Fin P → ℝ) :
    conv (equalizeW2 w1 w2) b2 (fun _ c => c) pos2
      (fun c q => act c
        (conv (equalizeW1 w1 w2) (equalizeB1 w1 w2 b1) chmap1 pos1 x c q)) =
    conv w2 b2 (fun _ c => c) pos2
      (fun c q => act c (conv w1 b1 chmap1 pos1 x c q)) := by
  have hs : ∀ c, 0 < eqScale w1 w2 c := fun c => eqScale_pos w1 w2 (hr1 c) (hr2 c)
  have hx : ∀ c q, conv (equalizeW1 w1 w2) (equalizeB1 w1 w2 b1) chmap1 pos1 x c q =
      conv w1 b1 chmap1 pos1 x c q / eqScale w1 w2 c :=
    conv_equalized_first w1 b1 w2 chmap1 pos1 x
  funext o q2
  simp only [hx]
  simp only [conv]
  congr 1
  apply Finset.sum_congr rfl
  intro c _
  apply Finset.sum_congr rfl
  intro k _
  have hne : eqScale w1 w2 c ≠ 0 := (hs c).ne'
  rw [div_eq_inv_mul, hact c _ _ (inv_pos.mpr (hs c))]
  simp only [equalizeW2]
  field_simp
  ring

/-- Counterexample to C2 as frozen (without the non-degeneracy caveat):
with `weight1 = [[[0]]]`, `bias1 = [1]`, `weight2 = [[[1]]]`, `bias2 = [0]`
and the Identity activation, `r1 = 0` makes `s = 0/sqrt(0) = 0`; the update
zeroes the first layer entirely (in torch it turns the weights into NaN),
and the composed output at the zero input drops from `1` to `0`: the
composition is not preserved. -/
theorem equalize_composition_counterexample :
    conv (equalizeW2 wZero wOne) (vconst 0) (fun _ c => c) oneIdx
      (fun c q =>
        conv (equalizeW1 wZero wOne) (equalizeB1 wZero wOne (vconst 1)) oneIdx
          oneIdx (fun _ _ => 0) c q) 0 0 ≠
    conv wOne (vconst 0) (fun _ c => c) oneIdx
      (fun c q => conv wZero (vconst 1) oneIdx oneIdx (fun _ _ => 0) c q) 0 0 := by
  have hscale : eqScale wZero wOne 0 = 0 := by
    unfold eqScale
    rw [rangeOut_wZero]
    norm_num
  simp only [conv, Fin.sum_univ_one, equalizeW1, equalizeB1, equalizeW2, wZero,
    wOne, vconst, oneIdx]
  rw [hscale]
  norm_num

/-- Witness for C2 at a concrete non-degenerate instance: all-ones 1×1
weights, ReLU between the layers, constant input `1`. -/
theorem equalize_preserves_composition_witness :
    (∀ c, rangeOut wOne c ≠ 0) ∧ (∀ c, rangeIn wOne c ≠ 0) ∧
    conv (equalizeW2 wOne wOne) (vconst 0) (fun _ c => c) oneIdx
      (fun c q => reluAct c
        (conv (equalizeW1 wOne wOne) (equalizeB1 wOne wOne (vconst 1)) oneIdx
          oneIdx (fun _ _ => 1) c q)) =
    conv wOne (vconst 0) (fun _ c => c) oneIdx
      (fun c q => reluAct c (conv wOne (vconst 1) oneIdx oneIdx (fun _ _ => 1) c q)) :=
  ⟨fun c => by rw [rangeOut_wOne]; norm_num,
   fun c => by rw [rangeIn_wOne]; norm_num,
   equalize_preserves_composition wOne (vconst 1) wOne (vconst 0) oneIdx oneIdx
     oneIdx reluAct reluAct_posHomog
     (fun c => by rw [rangeOut_wOne]; norm_num)
     (fun c => by rw [rangeIn_wOne]; norm_num)
     (fun _ _ => 1)⟩

/-! ## Traversal lemmas for group discovery -/

lemma graph_traverse_visited (G : Graph) (fuel node : ℕ) (gs : List Group)
    (cg : Group) (vis : List ℕ) (h : node ∈ vis) :
    graph_traverse G fuel node gs cg vis = (gs, vis) := by
  cases fuel with
  | zero => rfl
  | succ f => simp only [graph_traverse, if_pos h]

lemma graph_traverse_step (G : Graph) (fuel node : ℕ) (gs : List Group)
    (cg : Group) (vis : List ℕ) (h : node ∉ vis) :
    graph_traverse G (fuel + 1) node gs cg vis =
      runChildren (graph_traverse G fuel) (G.next node)
        (boundaryFlush G node (entryRecord gs cg).1
          (appendConv G node (entryRecord gs cg).2)).1
        (boundaryFlush G node (entryRecord gs cg).1
          (appendConv G node (entryRecord gs cg).2)).2
        (vis ++ [node]) := by
  simp only [graph_traverse, if_neg h]

lemma runChildren_singleton
    (f : ℕ → List Group → Group → List ℕ → List Group × List ℕ)
    (c : ℕ) (gs : List Group) (cg : Group) (vis : List ℕ) :
    runChildren f [c] gs cg vis = f c gs cg vis := by
  simp only [runChildren]

lemma entryRecord_unsupported (gs : List Group) (cg : Group)
    (h : is_group_supported cg = false) : entryRecord gs cg = (gs, cg) := by
  unfold entryRecord
  rw [if_neg]
  rintro ⟨h2, -⟩
  rw [h] at h2
  exact Bool.false_ne_true h2

lemma entryRecord_record (gs : List Group) (cg : Group)
    (h : is_group_supported cg = true) (hnew : cg ∉ gs) :
    entryRecord gs cg = (gs ++ [cg], lastOf cg) := by
  unfold entryRecord
  rw [if_pos ⟨h, hnew⟩]

lemma is_group_supported_nil : is_group_supported [] = false := rfl

lemma is_group_supported_single (p : ℕ × ModKind) :
    is_group_supported [p] = false := rfl

lemma is_group_supported_cc (a b : ℕ) :
    is_group_supported [(a, cv), (b, cv)] = true := rfl

lemma chainMod_even (M i : ℕ) (h : i % 2 = 0) : chainMod M i = cv := by
  have h1 : ¬ i = 2 * M + 1 := by omega
  unfold chainMod
  rw [if_neg h1, if_pos h]

lemma chainMod_odd (M i : ℕ) (h1 : i % 2 = 1) (h2 : i < 2 * M + 1) :
    chainMod M i = ModKind.act := by
  have hne : ¬ i = 2 * M + 1 := by omega
  have he : ¬ i % 2 = 0 := by omega
  unfold chainMod
  rw [if_neg hne, if_neg he]

lemma chainMod_boundary (M : ℕ) : chainMod M (2 * M + 1) = ModKind.other := by
  unfold chainMod
  rw [if_pos rfl]

lemma chainNext_le (M i : ℕ) (h : i ≤ 2 * M) : chainNext M i = [i + 1] := by
  unfold chainNext
  rw [if_pos h]

lemma chainNext_gt (M i : ℕ) (h : ¬ i ≤ 2 * M) : chainNext M i = [] := by
  unfold chainNext
  rw [if_neg h]

lemma appendConv_supported (G : Graph) (node : ℕ) (cg : Group)
    (h : isSupportedMod (G.mod node) = true) :
    appendConv G node cg = cg ++ [(node, G.mod node)] := by
  unfold appendConv
  rw [if_pos h]

lemma appendConv_unsupported (G : Graph) (node : ℕ) (cg : Group)
    (h : isSupportedMod (G.mod node) = false) :
    appendConv G node cg = cg := by
  unfold appendConv
  rw [if_neg]
  intro h2
  rw [h] at h2
  exact Bool.false_ne_true h2

lemma boundaryFlush_chain (G : Graph) (node : ℕ) (gs : List Group) (cg : Group)
    (hlen : ¬ 1 < (G.next node).length)
    (hm : isScalableMod (G.mod node) = true ∨ isSupportedMod (G.mod node) = true) :
    boundaryFlush G node gs cg = (gs, cg) := by
  unfold boundaryFlush
  rw [if_neg (fun h => h.elim hlen fun hn => hn hm)]

lemma boundaryFlush_break_nosave (G : Graph) (node : ℕ) (gs : List Group)
    (cg : Group) (hsc : isScalableMod (G.mod node) = false)
    (hsup : isSupportedMod (G.mod node) = false)
    (hcg : is_group_supported cg = false) :
    boundaryFlush G node gs cg = (gs, []) := by
  have hcond : 1 < (G.next node).length ∨
      ¬(isScalableMod (G.mod node) = true ∨ isSupportedMod (G.mod node) = true) := by
    refine Or.inr ?_
    rintro (h | h)
    · rw [hsc] at h; exact Bool.false_ne_true h
    · rw [hsup] at h; exact Bool.false_ne_true h
  unfold boundaryFlush
  rw [if_pos hcond, if_neg]
  rintro ⟨h2, -⟩
  rw [hcg] at h2
  exact Bool.false_ne_true h2

/-- Entering the convolution node `2*j` of the chain: the accumulator (not
yet a supported group) gains the conv and the walk moves to node `2*j+1`. -/
lemma chain_step_conv (M j fuel : ℕ) (gs : List Group) (cg : Group)
    (hj : j ≤ M) (hcg : is_group_supported cg = false) :
    graph_traverse (chainGraph M) (fuel + 1) (2 * j) gs cg (List.range (2 * j)) =
      graph_traverse (chainGraph M) fuel (2 * j + 1) gs (cg ++ [(2 * j, cv)])
        (List.range (2 * j + 1)) := by
  have hnv : 2 * j ∉ List.range (2 * j) := by simp
  have hmod : (chainGraph M).mod (2 * j) = cv := chainMod_even M _ (by omega)
  have hnext : (chainGraph M).next (2 * j) = [2 * j + 1] := chainNext_le M _ (by omega)
  rw [graph_traverse_step _ _ _ _ _ _ hnv, entryRecord_unsupported gs cg hcg]
  dsimp only
  rw [appendConv_supported _ _ _ (by rw [hmod]; rfl), hmod,
    boundaryFlush_chain _ _ _ _ (by rw [hnext]; simp) (Or.inr (by rw [hmod]; rfl))]
  dsimp only
  rw [hnext, runChildren_singleton, ← List.range_succ]

/-- Entering an activation node `2*j+1` of the chain with an accumulator
that is not a supported group: nothing is recorded and the walk moves on. -/
lemma chain_step_act_skip (M j fuel : ℕ) (gs : List Group) (cg : Group)
    (hj : j < M) (hcg : is_group_supported cg = false) :
    graph_traverse (chainGraph M) (fuel + 1) (2 * j + 1) gs cg
        (List.range (2 * j + 1)) =
      graph_traverse (chainGraph M) fuel (2 * j + 2) gs cg
        (List.range (2 * j + 2)) := by
  have hnv : 2 * j + 1 ∉ List.range (2 * j + 1) := by simp
  have hmod : (chainGraph M).mod (2 * j + 1) = ModKind.act :=
    chainMod_odd M _ (by omega) (by omega)
  have hnext : (chainGraph M).next (2 * j + 1) = [2 * j + 2] :=
    chainNext_le M _ (by omega)
  rw [graph_traverse_step _ _ _ _ _ _ hnv, entryRecord_unsupported gs cg hcg]
  dsimp only
  rw [appendConv_unsupported _ _ _ (by rw [hmod]; rfl),
    boundaryFlush_chain _ _ _ _ (by rw [hnext]; simp) (Or.inl (by rw [hmod]; rfl))]
  dsimp only
  rw [hnext, runChildren_singleton, ← List.range_succ]

/-- Entering an activation node `2*j+1` of the chain with a supported,
not-yet-recorded accumulator: the group is recorded and the accumulator
restarts from its last element. -/
lemma chain_step_act_record (M j fuel : ℕ) (gs : List Group) (cg : Group)
    (hj : j < M) (hcg : is_group_supported cg = true) (hnew : cg ∉ gs) :
    graph_traverse (chainGraph M) (fuel + 1) (2 * j + 1) gs cg
        (List.range (2 * j + 1)) =
      graph_traverse (chainGraph M) fuel (2 * j + 2) (gs ++ [cg]) (lastOf cg)
        (List.range (2 * j + 2)) := by
  have hnv : 2 * j + 1 ∉ List.range (2 * j + 1) := by simp
  have hmod : (chainGraph M).mod (2 * j + 1) = ModKind.act :=
    chainMod_odd M _ (by omega) (by omega)
  have hnext : (chainGraph M).next (2 * j + 1) = [2 * j + 2] :=
    chainNext_le M _ (by omega)
  rw [graph_traverse_step _ _ _ _ _ _ hnv, entryRecord_record gs cg hcg hnew]
  dsimp only
  rw [appendConv_unsupported _ _ _ (by rw [hmod]; rfl),
    boundaryFlush_chain _ _ _ _ (by rw [hnext]; simp) (Or.inl (by rw [hmod]; rfl))]
  dsimp only
  rw [hnext, runChildren_singleton, ← List.range_succ]

/-- Entering the chain-breaking final node `2*M+1` with a supported,
not-yet-recorded accumulator: the group is recorded at entry, the boundary
flush finds only the unsupported carry-over, and the walk ends. -/
lemma chain_step_final (M fuel : ℕ) (gs : List Group) (cg : Group)
    (hcg : is_group_supported cg = true) (hnew : cg ∉ gs)
    (hlast : is_group_supported (lastOf cg) = false) :
    graph_traverse (chainGraph M) (fuel + 1) (2 * M + 1) gs cg
        (List.range (2 * M + 1)) =
      (gs ++ [cg], List.range (2 * M + 2)) := by
  have hnv : 2 * M + 1 ∉ List.range (2 * M + 1) := by simp
  have hmod : (chainGraph M).mod (2 * M + 1) = ModKind.other := chainMod_boundary M
  have hnext : (chainGraph M).next (2 * M + 1) = [] := chainNext_gt M _ (by omega)
  rw [graph_traverse_step _ _ _ _ _ _ hnv, entryRecord_record gs cg hcg hnew]
  dsimp only
  rw [appendConv_unsupported _ _ _ (by rw [hmod]; rfl),
    boundaryFlush_break_nosave _ _ _ _ (by rw [hmod]; rfl) (by rw [hmod]; rfl) hlast]
  dsimp only
  rw [hnext]
  simp only [runChildren]
  rw [← List.range_succ]

lemma pairG_ne (i j : ℕ) (h2 : j < i) : pairG i ≠ pairG j := by
  intro heq
  simp only [pairG, List.cons.injEq, Prod.mk.injEq, and_true] at heq
  omega

lemma partFrom_cons (j M : ℕ) (h : j ≤ M) :
    partFrom j M = pairG j :: partFrom (j + 1) M := by
  unfold partFrom
  have h1 : M + 1 - j = (M - j) + 1 := by omega
  have h2 : M + 1 - (j + 1) = M - j := by omega
  rw [h1, h2, List.range_succ_eq_map, List.map_cons, List.map_map]
  congr 1
  have h3 : ((fun t => pairG (j + t)) ∘ Nat.succ) = fun t => pairG (j + 1 + t) := by
    funext t
    simp only [Function.comp]
    congr 1
    omega
  rw [h3]

lemma partFrom_last (M : ℕ) : partFrom M M = [pairG M] := by
  unfold partFrom
  have h1 : M + 1 - M = 1 := by omega
  rw [h1]
  rfl

lemma partFrom_one (M : ℕ) :
    partFrom 1 M = (List.range M).map (fun i => [(2 * i, cv), (2 * i + 2, cv)]) := by
  unfold partFrom
  have h1 : M + 1 - 1 = M := by omega
  rw [h1]
  have h2 : (fun t => pairG (1 + t)) =
      (fun i : ℕ => [(2 * i, cv), (2 * i + 2, cv)]) := by
    funext t
    unfold pairG
    have e1 : 2 * (1 + t) - 2 = 2 * t := by omega
    have e2 : 2 * (1 + t) = 2 * t + 2 := by omega
    rw [e1, e2]
  rw [h2]

/-- Walking the chain from the conv node of pair `M - d` collects exactly
the remaining pairs, in order. -/
lemma chain_walk (M : ℕ) : ∀ d, d < M → ∀ fuel gs, 2 * d + 2 ≤ fuel →
    (∀ i, M - d ≤ i → pairG i ∉ gs) →
    graph_traverse (chainGraph M) fuel (2 * (M - d)) gs
        [(2 * (M - d) - 2, cv)] (List.range (2 * (M - d))) =
      (gs ++ partFrom (M - d) M, List.range (2 * M + 2)) := by
  intro d
  induction d with
  | zero =>
    intro hd fuel gs hfuel hfresh
    simp only [Nat.sub_zero] at hfresh ⊢
    obtain ⟨f, rfl⟩ : ∃ f, fuel = f + 1 + 1 := ⟨fuel - 2, by omega⟩
    rw [chain_step_conv M M (f + 1) gs [(2 * M - 2, cv)] le_rfl
        (is_group_supported_single _),
      chain_step_final M f gs ([(2 * M - 2, cv)] ++ [(2 * M, cv)]) rfl
        (hfresh M le_rfl) rfl, partFrom_last]
    rfl
  | succ d ih =>
    intro hd fuel gs hfuel hfresh
    obtain ⟨f, rfl⟩ : ∃ f, fuel = f + 1 + 1 := ⟨fuel - 2, by omega⟩
    rw [chain_step_conv M (M - (d + 1)) (f + 1) gs [(2 * (M - (d + 1)) - 2, cv)]
        (by omega) (is_group_supported_single _),
      chain_step_act_record M (M - (d + 1)) f gs
        ([(2 * (M - (d + 1)) - 2, cv)] ++ [(2 * (M - (d + 1)), cv)]) (by omega) rfl
        (hfresh (M - (d + 1)) le_rfl)]
    have e1 : 2 * (M - (d + 1)) + 2 = 2 * (M - d) := by omega
    have e3 : lastOf ([(2 * (M - (d + 1)) - 2, cv)] ++ [(2 * (M - (d + 1)), cv)]) =
        [(2 * (M - d) - 2, cv)] := by
      show [(2 * (M - (d + 1)), cv)] = [(2 * (M - d) - 2, cv)]
      rw [show 2 * (M - (d + 1)) = 2 * (M - d) - 2 from by omega]
    rw [e1, e3]
    have hfreshT : ∀ i, M - d ≤ i →
        pairG i ∉ gs ++ [[(2 * (M - (d + 1)) - 2, cv)] ++ [(2 * (M - (d + 1)), cv)]] := by
      intro i hi
      rw [List.mem_append, List.mem_singleton]
      rintro (h | h)
      · exact hfresh i (by omega) h
      · exact pairG_ne i (M - (d + 1)) (by omega) h
    rw [ih (by omega) f _ (by omega) hfreshT]
    rw [partFrom_cons (M - (d + 1)) M (by omega),
      show M - (d + 1) + 1 = M - d from by omega, List.append_assoc]
    rfl

lemma foldl_traverse_visited (G : Graph) (fuel : ℕ) :
    ∀ (l : List ℕ) (gs : List Group) (vis : List ℕ), (∀ x ∈ l, x ∈ vis) →
      List.foldl (fun st node => graph_traverse G fuel node st.1 [] st.2)
        (gs, vis) l = (gs, vis) := by
  intro l
  induction l with
  | nil => intro gs vis _; rfl
  | cons a l ih =>
    intro gs vis h
    rw [List.foldl_cons]
    dsimp only
    rw [graph_traverse_visited G fuel a gs [] vis (h a (List.mem_cons_self a l))]
    exact ih gs vis fun x hx => h x (List.mem_cons_of_mem a hx)

/-- `get_cls_set` on the `M+1`-conv chain returns exactly the `M`
overlapping adjacent 2-groups, in order. -/
lemma get_cls_set_chain (M : ℕ) :
    get_cls_set (chainGraph M) (List.range (2 * M + 2)) (2 * M + 2) =
      (List.range M).map (fun i => [(2 * i, cv), (2 * i + 2, cv)]) := by
  rcases Nat.eq_zero_or_pos M with hM | hM
  · subst hM
    decide
  · have hwalk : graph_traverse (chainGraph M) (2 * M + 2) 0 [] [] [] =
        ((List.range M).map (fun i => [(2 * i, cv), (2 * i + 2, cv)]),
          List.range (2 * M + 2)) := by
      have h0 : graph_traverse (chainGraph M) (2 * M + 2) 0 [] [] [] =
          graph_traverse (chainGraph M) (2 * M + 1 + 1) (2 * 0) [] []
            (List.range (2 * 0)) := rfl
      rw [h0, chain_step_conv M 0 (2 * M + 1) [] [] (by omega) is_group_supported_nil,
        chain_step_act_skip M 0 (2 * M) [] ([] ++ [(2 * 0, cv)]) (by omega)
          (is_group_supported_single _)]
      have e1 : (2 : ℕ) * 0 + 2 = 2 * (M - (M - 1)) := by omega
      have e2 : ([] : Group) ++ [(2 * 0, cv)] = [(2 * (M - (M - 1)) - 2, cv)] := by
        rw [show (2 : ℕ) * (M - (M - 1)) - 2 = 0 from by omega]
        rfl
      rw [e1, e2,
        chain_walk M (M - 1) (by omega) (2 * M) [] (by omega)
          (fun i _ => List.not_mem_nil _),
        show M - (M - 1) = 1 from by omega, partFrom_one, List.nil_append]
    unfold get_cls_set
    rw [List.range_succ_eq_map, List.foldl_cons]
    dsimp only
    rw [hwalk]
    rw [foldl_traverse_visited (chainGraph M) (2 * M + 2) _ _ _ ?_]
    intro x hx
    simp only [List.mem_map, List.mem_range] at hx
    simp only [List.mem_range]
    omega

/-! ## Claim C3: coverage of adjacent pairs by discovery -/

/-- C3 (amended): for a run of `M + 1` sequential normal convolutions
separated only by scale-preserving activations **and terminated by a
chain-breaking node**, discovery returns exactly the `M` overlapping
2-groups, in order — every adjacent pair of convolutions is covered exactly
once and no returned group is longer than 3 (all have length 2).  The
termination condition is necessary: when the run's last convolution is a
graph sink, the final adjacent pair is never flushed and is omitted (see
the counterexample). -/
theorem chain_discovery_covers_adjacent_pairs (M : ℕ) :
    get_cls_set (chainGraph M) (List.range (2 * M + 2)) (2 * M + 2) =
      (List.range M).map (fun i => [(2 * i, cv), (2 * i + 2, cv)]) ∧
    ∀ g ∈ get_cls_set (chainGraph M) (List.range (2 * M + 2)) (2 * M + 2),
      g.length = 2 := by
  refine ⟨get_cls_set_chain M, ?_⟩
  rw [get_cls_set_chain M]
  intro g hg
  simp only [List.mem_map] at hg
  obtain ⟨i, -, rfl⟩ := hg
  rfl

/-- Counterexample to C3 as frozen: on the acyclic graph
`conv₀ → act₁ → conv₂` whose final convolution is a graph sink, discovery
returns no group at all, so the adjacent pair `(conv₀, conv₂)` of the run
is not covered: the chain `[conv₀, conv₂]` is only flushed on entering a
*following* node, and no node follows. -/
theorem chain_discovery_misses_sink_pair :
    get_cls_set sinkChain [0, 1, 2] 3 = [] ∧
    ∀ g ∈ get_cls_set sinkChain [0, 1, 2] 3, ¬((0, cv) ∈ g ∧ (2, cv) ∈ g) := by
  decide

/-! ## Claim C4: how discovered groups may overlap -/

/-- Counterexample to C4 as frozen: on the chain with three normal
convolutions (nodes 0, 2, 4) the pass returns two 2-element groups that
share the middle convolution — the claim says no two 2-element groups share
a layer. -/
theorem two_2groups_share_a_layer :
    get_cls_set (chainGraph 2) (List.range 6) 6 =
      [[(0, cv), (2, cv)], [(2, cv), (4, cv)]] ∧
    ((get_cls_set (chainGraph 2) (List.range 6) 6).getD 0 []).length = 2 ∧
    ((get_cls_set (chainGraph 2) (List.range 6) 6).getD 1 []).length = 2 ∧
    (2, cv) ∈ (get_cls_set (chainGraph 2) (List.range 6) 6).getD 0 [] ∧
    (2, cv) ∈ (get_cls_set (chainGraph 2) (List.range 6) 6).getD 1 [] := by
  decide

/-- C4 (amended): discovered groups are pairwise non-overlapping except
that **any** group — 2-element groups included, via the carry-over of line
74 — may share exactly its terminal convolution as the head of the next
group; proved over the chain family: two distinct groups share an entry
only when consecutive, the shared entry is unique and is the terminal of
the earlier group and the head of the later one. -/
theorem chain_groups_overlap_only_at_seam (M i j : ℕ)
    (hi : i < M) (hj : j < M) (hij : i < j) :
    (∀ p, p ∈ (get_cls_set (chainGraph M) (List.range (2 * M + 2)) (2 * M + 2)).getD i [] →
      p ∈ (get_cls_set (chainGraph M) (List.range (2 * M + 2)) (2 * M + 2)).getD j [] →
      j = i + 1 ∧ p = (2 * j, cv)) ∧
    (j = i + 1 →
      ((get_cls_set (chainGraph M) (List.range (2 * M + 2)) (2 * M + 2)).getD i
        []).getLast? = some (2 * j, cv) ∧
      ((get_cls_set (chainGraph M) (List.range (2 * M + 2)) (2 * M + 2)).getD j
        []).head? = some (2 * j, cv)) := by
  have hget : ∀ k, k < M →
      ((List.range M).map (fun i => [(2 * i, cv), (2 * i + 2, cv)])).getD k [] =
        [(2 * k, cv), (2 * k + 2, cv)] := by
    intro k hk
    rw [List.getD_eq_getElem?_getD, List.getElem?_map, List.getElem?_range hk]
    rfl
  rw [get_cls_set_chain M, hget i hi, hget j hj]
  constructor
  · intro p hpi hpj
    simp only [List.mem_cons, List.not_mem_nil, or_false] at hpi hpj
    obtain rfl | rfl := hpi <;> obtain h | h := hpj <;>
      rw [Prod.mk.injEq] at h
    · exact absurd h.1 (by omega)
    · exact absurd h.1 (by omega)
    · exact ⟨by omega, by rw [Prod.mk.injEq]; exact h⟩
    · exact absurd h.1 (by omega)
  · intro hji
    subst hji
    constructor
    · show List.getLast? [(2 * i, cv), (2 * i + 2, cv)] = some (2 * (i + 1), cv)
      rw [show 2 * (i + 1) = 2 * i + 2 from by omega]
      rfl
    · show List.head? [(2 * (i + 1), cv), (2 * (i + 1) + 2, cv)] = some (2 * (i + 1), cv)
      rfl

/-- Witness for C4 (amended) on the three-convolution chain, groups 0 and 1. -/
theorem chain_groups_overlap_only_at_seam_witness :
    (∀ p, p ∈ (get_cls_set (chainGraph 2) (List.range 6) 6).getD 0 [] →
      p ∈ (get_cls_set (chainGraph 2) (List.range 6) 6).getD 1 [] →
      1 = 0 + 1 ∧ p = (2 * 1, cv)) ∧
    (1 = 0 + 1 →
      ((get_cls_set (chainGraph 2) (List.range 6) 6).getD 0 []).getLast? =
        some (2 * 1, cv) ∧
      ((get_cls_set (chainGraph 2) (List.range 6) 6).getD 1 []).head? =
        some (2 * 1, cv)) :=
  chain_groups_overlap_only_at_seam 2 0 1 (by norm_num) (by norm_num) (by norm_num)

end CLE
